import Mathlib

/-!
Verification of the unified-deploy-config resolution engine.

The JSON-like value domain is modelled as a mutual inductive family so that
every operation of the engine is structurally recursive and kernel-computable.
`Fields` models a JavaScript object as an ordered association list of
key/value pairs (JS objects preserve insertion order and have unique keys);
`ValList` models a JS array.
-/

namespace UDC

mutual

inductive ConfigValue where
  | null
  | bool (b : Bool)
  | num (n : Int)
  | str (s : String)
  | arr (xs : ValList)
  | obj (fields : Fields)
deriving DecidableEq

inductive ValList where
  | nil
  | cons (v : ConfigValue) (rest : ValList)
deriving DecidableEq

inductive Fields where
  | nil
  | cons (key : String) (value : ConfigValue) (rest : Fields)
deriving DecidableEq

end

/-- Build a `Fields` object from a Lean list literal (for readable documents). -/
def fieldsOf : List (String × ConfigValue) → Fields
  | [] => .nil
  | (k, v) :: rest => .cons k v (fieldsOf rest)

/-- Build a `ValList` array from a Lean list literal. -/
def valsOf : List ConfigValue → ValList
  | [] => .nil
  | v :: rest => .cons v (valsOf rest)

/-- `obj[key]` on a JS object: the value of the (first) entry with this key. -/
def jget : Fields → String → Option ConfigValue
  | .nil, _ => none
  | .cons k' v rest, k => if k' = k then some v else jget rest k

/-- `obj[key] = value` on a JS object: update in place if the key exists
(keeping its position), otherwise append at the end. -/
def jset : Fields → String → ConfigValue → Fields
  | .nil, k, v => .cons k v .nil
  | .cons k' v' rest, k, v =>
      if k' = k then .cons k' v rest else .cons k' v' (jset rest k v)

/-- The keys of an object, in order. -/
def fkeys : Fields → List String
  | .nil => []
  | .cons k _ rest => k :: fkeys rest

/--
The per-object loop of `deepMerge` (src/lib/utils.ts `deepMerge`):
`result` is the accumulated object, the second argument the entries of the
incoming object, processed in order.  For each key: if both the accumulated
value and the incoming value are plain objects (not arrays, not null), the
two are merged recursively; otherwise the incoming value replaces the
accumulated one wholesale.  (The source performs the recursive case through
the variadic entry point, which first shallow-copies the accumulated object;
for JS objects, whose keys are unique, that copy is the identity.)
-/
def mergeTwo : Fields → Fields → Fields
  | result, .nil => result
  | result, .cons k (.obj ov) rest =>
      match jget result k with
      | some (.obj rv) => mergeTwo (jset result k (.obj (mergeTwo rv ov))) rest
      | _ => mergeTwo (jset result k (.obj ov)) rest
  | result, .cons k v rest => mergeTwo (jset result k v) rest

/-- `Object.keys` of a JS array: the decimal index strings paired with the
elements (used when an array is passed to the variadic `deepMerge`). -/
def enumKeys (xs : ValList) (i : Nat := 0) : Fields :=
  match xs with
  | .nil => .nil
  | .cons v rest => .cons (toString i) v (enumKeys rest (i + 1))

/-- One step of the variadic `deepMerge` loop: `null`, booleans, numbers and
strings are skipped (`!obj || typeof obj !== 'object'`); objects and arrays
(whose `Object.keys` are index strings) are folded in. -/
def mergeArg (result : Fields) : ConfigValue → Fields
  | .obj o => mergeTwo result o
  | .arr xs => mergeTwo result (enumKeys xs)
  | _ => result

/-- `deepMerge(...objects)` from src/lib/utils.ts: later objects override
earlier ones. -/
def deepMerge (args : List ConfigValue) : Fields :=
  args.foldl mergeArg .nil

/-- `findNullValue` (src/lib/utils.ts): depth-first walk in key order
returning the dot path of the first `null` leaf; arrays are opaque leaves. -/
def findNullValue : Fields → String → Option String
  | .nil, _ => none
  | .cons k v rest, path =>
      let currentPath := if path = "" then k else path ++ "." ++ k
      match v with
      | .null => some currentPath
      | .obj o =>
          match findNullValue o currentPath with
          | some p => some p
          | none => findNullValue rest path
      | _ => findNullValue rest path

/-- `hasNullValues` (cli.js): whether any `null` occurs at any object depth;
arrays are opaque leaves. -/
def hasNullValues : Fields → Bool
  | .nil => false
  | .cons _ v rest =>
      match v with
      | .null => true
      | .obj o => hasNullValues o || hasNullValues rest
      | _ => hasNullValues rest

/-- `validateNoNullValues` (cli.js): throws on the first `null` found, naming
its dot path. -/
def validateNoNullValues : Fields → String → Except String Unit
  | .nil, _ => .ok ()
  | .cons k v rest, path =>
      let currentPath := if path = "" then k else path ++ "." ++ k
      match v with
      | .null => .error s!"Configuration contains null value at path: {currentPath}. All required fields must have concrete values defined in the environment configuration."
      | .obj o => do
          let _ ← validateNoNullValues o currentPath
          validateNoNullValues rest path
      | _ => validateNoNullValues rest path

/-- `key.startsWith('_')`. -/
def startsUnderscore (k : String) : Bool :=
  match k.data with
  | '_' :: _ => true
  | _ => false

/-- `stripMetadataKeys` (cli.js): drop every key beginning with `_`, recursing
into nested objects but not into arrays. -/
def stripMetadataKeys : Fields → Fields
  | .nil => .nil
  | .cons k (.obj o) rest =>
      if startsUnderscore k then stripMetadataKeys rest
      else .cons k (.obj (stripMetadataKeys o)) (stripMetadataKeys rest)
  | .cons k v rest =>
      if startsUnderscore k then stripMetadataKeys rest
      else .cons k v (stripMetadataKeys rest)

/-- `flatten` (cli.js), written with the result object threaded through:
object values recurse with the delimiter-joined key, everything else is
assigned as a leaf. -/
def flattenInto (delim : String) : Fields → String → Fields → Fields
  | acc, _, .nil => acc
  | acc, pre, .cons k (.obj o) rest =>
      flattenInto delim (flattenInto delim acc (if pre = "" then k else pre ++ delim ++ k) o) pre rest
  | acc, pre, .cons k v rest =>
      flattenInto delim (jset acc (if pre = "" then k else pre ++ delim ++ k) v) pre rest

/-- The AWS region table (cli.js `AwsRegionMapping`), short code to full
name, in declaration order. -/
def awsRegionMapping : List (String × String) :=
  [("use1", "us-east-1"), ("use2", "us-east-2"), ("usw1", "us-west-1"),
   ("usw2", "us-west-2"), ("cac1", "ca-central-1"), ("euw1", "eu-west-1"),
   ("euw2", "eu-west-2"), ("euw3", "eu-west-3"), ("euc1", "eu-central-1"),
   ("eun1", "eu-north-1"), ("aps1", "ap-south-1"), ("apne1", "ap-northeast-1"),
   ("apne2", "ap-northeast-2"), ("apne3", "ap-northeast-3"),
   ("apse1", "ap-southeast-1"), ("apse2", "ap-southeast-2"),
   ("apse3", "ap-southeast-3"), ("ape1", "ap-east-1"), ("sae1", "sa-east-1")]

/-- `AwsRegionMapping[code]` as an optional lookup. -/
def lookupShortCode (code : String) : Option String :=
  (awsRegionMapping.find? (fun p => p.1 = code)).map (·.2)

/-- `Object.values(AwsRegionMapping).includes(r)`. -/
def isFullRegionName (r : String) : Bool :=
  awsRegionMapping.any (fun p => p.2 = r)

/-- `getRegionShortCode` (cli.js): reverse lookup with pass-through. -/
def getRegionShortCode (full : String) : String :=
  ((awsRegionMapping.find? (fun p => p.2 = full)).map (·.1)).getD full

/-- `target.endsWith(suffix)` over the character lists. -/
def strEndsWith (s suffix : String) : Bool :=
  suffix.data.isSuffixOf s.data

/-- `target.slice(0, -suffix.length)`. -/
def dropSuffix (s suffix : String) : String :=
  String.mk (s.data.take (s.data.length - suffix.data.length))

/-- `parseTarget` (cli.js): try every known full region name as a
`-<fullname>` suffix first, then every known short code as a `-<code>`
suffix; the first match strips the suffix and yields the full region name;
otherwise the whole target is the environment name. -/
def parseTarget (target : String) : String × Option String :=
  match awsRegionMapping.find? (fun p => strEndsWith target ("-" ++ p.2)) with
  | some p => (dropSuffix target ("-" ++ p.2), some p.2)
  | none =>
      match awsRegionMapping.find? (fun p => strEndsWith target ("-" ++ p.1)) with
      | some p => (dropSuffix target ("-" ++ p.1), some p.2)
      | none => (target, none)

/--
The root document, following the source's declared `DeploymentConfig` type
(cli.js generation: `defaults` plus `environments`; each environment entry is
a mapping whose reserved key `regions` holds the per-region mappings).
-/
structure DeploymentConfig where
  defaults : Option Fields
  environments : Option (List (String × Fields))
deriving DecidableEq

/-- `envSource[name]` over the declared-environments mapping. -/
def envLookup (es : Option (List (String × Fields))) (name : String) : Option Fields :=
  match es with
  | none => none
  | some l => (l.find? (fun p => p.1 = name)).map (·.2)

/-- Result of `determineEnvironment` (cli.js). -/
structure DetEnvResult where
  envName : String
  envConfigName : String
  isEphemeral : Bool
deriving DecidableEq

/-- `Environment '<e>' not found in config file`. -/
def envNotFoundMsg (e : String) : String :=
  s!"Environment '{e}' not found in config file"

/-- The `InvalidEphemeralBranchFormat` message (cli.js line 379): names the
required format `<prefix><name>` and the offending branch. -/
def branchFormatMsg (pfx b : String) : String :=
  "Ephemeral environment branches must follow the format '" ++ pfx ++
    "<name>' where <name> contains only lowercase letters, numbers, hyphens, and underscores. Current branch: " ++ b

/-- The `EphemeralNameMismatch` message (cli.js line 371). -/
def nameMismatchMsg (e b : String) : String :=
  s!"Ephemeral environment name '{e}' does not match the branch name '{b}'"

/-- `!ephemeralBranchPrefix || ephemeralBranchPrefix.trim() === ''`: the
prefix is absent, empty or all whitespace. -/
def isBlankPfx : Option String → Bool
  | none => true
  | some s => s.data.all (fun c => c.isWhitespace)

/-- One character of the `[a-z0-9_-]` class of the ephemeral branch pattern. -/
def validBranchChar (c : Char) : Bool :=
  decide (('a' ≤ c ∧ c ≤ 'z') ∨ ('0' ≤ c ∧ c ≤ '9') ∨ c = '_' ∨ c = '-')

/-- The regex `^<escaped prefix>[a-z0-9_-]+$` applied to the branch name: the
literal prefix anchored at the start, followed by one or more characters of
the class, up to the end. -/
def branchMatchesPattern (pfx b : String) : Bool :=
  pfx.data.isPrefixOf b.data &&
    !(b.data.drop pfx.data.length).isEmpty &&
    (b.data.drop pfx.data.length).all validBranchChar

/-- `branchName.substring(prefix.length)`. -/
def stripPfx (pfx b : String) : String :=
  String.mk (b.data.drop pfx.data.length)

/--
`determineEnvironment` (cli.js lines 335-395): decides whether the requested
environment is a direct config match or an ephemeral environment derived
from a branch name.  Mirrors the source's control flow: direct-match early
return, then the blank-prefix / disabled-check / branch-name chain, then the
bare-`ephemeral` fallthrough.
-/
def determineEnvironment (envSource : Option (List (String × Fields))) (env : String)
    (ephPfx : Option String) (disableCheck : Bool) (branch : Option String) :
    Except String DetEnvResult :=
  if env ≠ "ephemeral" ∧ (envLookup envSource env).isSome then
    .ok ⟨env, env, false⟩
  else
    -- `env === 'ephemeral' && envSource && envSource[env]` (lines 348-351)
    let isEph0 : Bool := env = "ephemeral" && (envLookup envSource env).isSome
    if isBlankPfx ephPfx then
      if isEph0 then .ok ⟨env, "ephemeral", true⟩
      else .error (envNotFoundMsg env)
    else if disableCheck then
      .ok ⟨env, "ephemeral", true⟩
    else
      match branch with
      | some b =>
          if b ≠ "" then
            let pfx := ephPfx.getD ""
            if branchMatchesPattern pfx b then
              let branchEnvName := stripPfx pfx b
              if env ≠ "ephemeral" ∧ env ≠ branchEnvName ∧ env ≠ b then
                .error (nameMismatchMsg env b)
              else
                .ok ⟨branchEnvName, "ephemeral", true⟩
            else
              .error (branchFormatMsg pfx b)
          else if env = "ephemeral" then .ok ⟨"ephemeral", "ephemeral", true⟩
          else if isEph0 then .ok ⟨env, "ephemeral", true⟩
          else .error (envNotFoundMsg env)
      | none =>
          if env = "ephemeral" then .ok ⟨"ephemeral", "ephemeral", true⟩
          else if isEph0 then .ok ⟨env, "ephemeral", true⟩
          else .error (envNotFoundMsg env)

/-- Optional-chaining property access `x?.[k]`: only object values have
properties. -/
def jprop : ConfigValue → String → Option ConfigValue
  | .obj o, k => jget o k
  | _, _ => none

/-- `x ?? {}` on a component-level lookup: `undefined` and `null` become the
empty object, everything else passes through. -/
def nullishD : Option ConfigValue → ConfigValue
  | none => .obj .nil
  | some .null => .obj .nil
  | some v => v

/-- The `regions` mapping of an environment entry, per its declared
`Record<string, RegionConfig>` type; absent or non-object values count as
no regions. -/
def regionsObj (envCfg : Fields) : Fields :=
  match jget envCfg "regions" with
  | some (.obj r) => r
  | _ => .nil

/-- `envRegions && Object.keys(envRegions).length > 0` (cli.js line 329). -/
def envHasRegions (envCfg : Fields) : Bool :=
  match regionsObj envCfg with
  | .nil => false
  | .cons _ _ _ => true

/-- `config.defaults?.[name]`. -/
def componentAtDefaults (config : DeploymentConfig) (name : String) : Option ConfigValue :=
  match config.defaults with
  | some d => jget d name
  | none => none

/-- `envSource?.[envConfigName]?.regions?.[fullRegion]?.[name]`. -/
def componentAtRegion (envCfg : Fields) (fullRegion : Option String) (name : String) :
    Option ConfigValue :=
  match fullRegion with
  | some fr =>
      match jget (regionsObj envCfg) fr with
      | some rc => jprop rc name
      | none => none
  | none => none

/-- `getMergedComponentConfig` (cli.js lines 397-406): three-level deep merge
of the component, then metadata-key stripping. -/
def getMergedComponentConfig (config : DeploymentConfig) (envCfg : Fields)
    (fullRegion : Option String) (name : String) : Fields :=
  stripMetadataKeys (deepMerge
    [nullishD (componentAtDefaults config name),
     nullishD (jget envCfg name),
     nullishD (componentAtRegion envCfg fullRegion name)])

/-- `isComponentRegionAgnostic` (cli.js lines 319-324): the defaults+env
merge of the component has `_regionAgnostic === true`. -/
def isComponentRegionAgnostic (config : DeploymentConfig) (envCfg : Fields)
    (name : String) : Bool :=
  match jget (deepMerge
      [nullishD (componentAtDefaults config name),
       nullishD (jget envCfg name)]) "_regionAgnostic" with
  | some (.bool true) => true
  | _ => false

/-- `value !== null && typeof value === 'object' && !Array.isArray(value)`. -/
def isComponentVal : Option ConfigValue → Bool
  | some (.obj _) => true
  | _ => false

/-- Insert keys into the ordered key set, keeping first-insertion order. -/
def addKeys (acc : List String) (ks : List String) : List String :=
  ks.foldl (fun a k => if a.contains k then a else a ++ [k]) acc

/-- `getAllComponentKeys` (cli.js lines 408-427): mapping-valued direct
children of `defaults`, of the environment entry (except `regions`), and —
when a region is active — of that region entry, deduplicated in encounter
order. -/
def getAllComponentKeys (config : DeploymentConfig) (envCfg : Fields)
    (fullRegion : Option String) : List String :=
  let dKeys := match config.defaults with
    | some d => (fkeys d).filter (fun k => isComponentVal (jget d k))
    | none => []
  let eKeys := (fkeys envCfg).filter
    (fun k => isComponentVal (jget envCfg k) && k ≠ "regions")
  let rKeys := match fullRegion with
    | some fr =>
        match jget (regionsObj envCfg) fr with
        | some (.obj rc) => (fkeys rc).filter (fun k => isComponentVal (jget rc k))
        | _ => []
    | none => []
  addKeys (addKeys (addKeys [] dKeys) eKeys) rKeys

/-- `typeof v !== 'object' || v === null || Array.isArray(v)`: a value kept
as global metadata rather than as a component. -/
def isNonComponentVal : ConfigValue → Bool
  | .obj _ => false
  | _ => true

/-- Keep only the entries whose value is non-component metadata. -/
def filterNonComponent : Fields → Fields
  | .nil => .nil
  | .cons k v rest =>
      if isNonComponentVal v then .cons k v (filterNonComponent rest)
      else filterNonComponent rest

/-- `getGlobalMerged` (cli.js lines 429-439): the three-way merge of the
non-mapping direct children at each level. -/
def getGlobalMerged (config : DeploymentConfig) (envCfg : Fields)
    (fullRegion : Option String) : Fields :=
  let d := filterNonComponent (config.defaults.getD .nil)
  let e := filterNonComponent envCfg
  let r := match fullRegion with
    | some fr =>
        match jget (regionsObj envCfg) fr with
        | some (.obj rc) => filterNonComponent rc
        | _ => .nil
    | none => .nil
  deepMerge [.obj d, .obj e, .obj r]

/-- One iteration of the component-filtering loop: skip a region-requiring
component when the environment has regions and none was supplied, then keep
the component only when its merged config has no nulls. -/
def validStep (config : DeploymentConfig) (envCfg : Fields)
    (fullRegion regionOpt : Option String) (k : String) : Option (String × Fields) :=
  if envHasRegions envCfg && regionOpt.isNone &&
      !(isComponentRegionAgnostic config envCfg k) then
    none
  else if hasNullValues (getMergedComponentConfig config envCfg fullRegion k) then
    none
  else
    some (k, getMergedComponentConfig config envCfg fullRegion k)

/-- The filtering loop of the no-component path (cli.js lines 469-479). -/
def validComponents (config : DeploymentConfig) (envCfg : Fields)
    (fullRegion regionOpt : Option String) : List (String × Fields) :=
  (getAllComponentKeys config envCfg fullRegion).filterMap
    (validStep config envCfg fullRegion regionOpt)

/-- The five injected metadata fields (cli.js lines 494-498). -/
def injectMetadata (o : Fields) (envName envConfigName : String)
    (fullRegion shortRegion : Option String) (isEph : Bool) : Fields :=
  jset (jset (jset (jset (jset o
    "env_name" (.str envName))
    "env_config_name" (.str envConfigName))
    "region" (.str (fullRegion.getD "")))
    "region_short" (.str (shortRegion.getD "")))
    "is_ephemeral" (.bool isEph)

/-- Object-spread `{...base, ...extra}` tail: assign the entries of `extra`
into `base` in order. -/
def spreadInto : Fields → Fields → Fields
  | base, .nil => base
  | base, .cons k v rest => spreadInto (jset base k v) rest

/-- Options of the `resolve` entry point (`MergeConfigOptions`), with the
document passed separately. -/
structure MergeOptions where
  env : String
  region : Option String
  output : Option String
  delimiter : Option String
  ephPfx : Option String
  disableCheck : Bool
  branchName : Option String
  component : Option String
deriving DecidableEq

/-- JS string truthiness on an optional string: the empty string counts as
absent. -/
def truthyStr : Option String → Option String
  | some "" => none
  | r => r

def noValidComponentsMsg : String :=
  "No valid components found for target. All components contain null values."

def regionRequiredMsg (envConfigName : String) (envCfg : Fields) : String :=
  s!"Environment '{envConfigName}' has regions defined. You must specify a region. Available regions: " ++
    String.intercalate ", " (fkeys (regionsObj envCfg))

def componentNotFoundMsg (c : String) : String :=
  s!"Component '{c}' not found or is not a valid component in the merged configuration"

def invalidRegionMsg (r : String) : String :=
  s!"Region '{r}' is not a valid region code or name"

/-- Tail of `mergeConfig`: metadata injection, the final null-scan, and the
optional flattening (cli.js lines 493-506). -/
def finishResult (det : DetEnvResult) (fullRegion shortRegion : Option String)
    (opts : MergeOptions) (assembled : Fields) : Except String Fields :=
  let withMeta := injectMetadata assembled det.envName det.envConfigName
    fullRegion shortRegion det.isEphemeral
  match validateNoNullValues withMeta "" with
  | .error e => .error e
  | .ok _ =>
      if opts.output = some "flatten" then
        .ok (flattenInto (opts.delimiter.getD ".") .nil "" withMeta)
      else .ok withMeta

/-- Body of `mergeConfig` after the environment and region checks passed
(cli.js lines 326-333 and 441-506): the component-hoisting path and the
component-filtering path. -/
def mergeConfigCore (config : DeploymentConfig) (det : DetEnvResult) (envCfg : Fields)
    (regionOpt fullRegion shortRegion : Option String) (opts : MergeOptions) :
    Except String Fields :=
  match truthyStr opts.component with
  | some cName =>
      if envHasRegions envCfg && regionOpt.isNone &&
          !(isComponentRegionAgnostic config envCfg cName) then
        .error (regionRequiredMsg det.envConfigName envCfg)
      else if !(getAllComponentKeys config envCfg fullRegion).contains cName then
        .error (componentNotFoundMsg cName)
      else
        finishResult det fullRegion shortRegion opts
          (spreadInto (getGlobalMerged config envCfg fullRegion)
            (getMergedComponentConfig config envCfg fullRegion cName))
  | none =>
      if (validComponents config envCfg fullRegion regionOpt).isEmpty &&
          !(getAllComponentKeys config envCfg fullRegion).isEmpty then
        .error noValidComponentsMsg
      else
        finishResult det fullRegion shortRegion opts
          ((validComponents config envCfg fullRegion regionOpt).foldl
            (fun r p => jset r p.1 (.obj p.2))
            (getGlobalMerged config envCfg fullRegion))

/--
`mergeConfig` (cli.js lines 280-507): resolve the environment, normalize the
region, check that the environment entry exists and the region is known,
then merge.  Returns the resolved object (nested, or flattened when the
output mode says so) or the error the source throws.
-/
def normFullRegion (regionOpt : Option String) : Option String :=
  regionOpt.map (fun r => (lookupShortCode r).getD r)

def normShortRegion (regionOpt : Option String) : Option String :=
  regionOpt.map (fun r =>
    ((awsRegionMapping.find?
      (fun p => p.2 = (lookupShortCode r).getD r)).map (·.1)).getD r)

def mergeConfig (config : DeploymentConfig) (opts : MergeOptions) : Except String Fields :=
  let envSource := config.environments
  match determineEnvironment envSource opts.env opts.ephPfx opts.disableCheck
      opts.branchName with
  | .error e => .error e
  | .ok det =>
      let regionOpt := truthyStr opts.region
      match envLookup envSource det.envConfigName with
      | none => .error (envNotFoundMsg det.envConfigName)
      | some envCfg =>
          match regionOpt with
          | some r =>
              if (lookupShortCode r).isNone && !(isFullRegionName r) then
                .error (invalidRegionMsg r)
              else
                mergeConfigCore config det envCfg (some r)
                  (normFullRegion (some r)) (normShortRegion (some r)) opts
          | none =>
              mergeConfigCore config det envCfg none none none opts

/-- JS falsiness of an optional looked-up value (`!x`): absent, `null`,
`false`, `0` and the empty string are falsy; objects and arrays are truthy. -/
def jsFalsyO : Option ConfigValue → Bool
  | none => true
  | some .null => true
  | some (.bool false) => true
  | some (.num 0) => true
  | some (.str "") => true
  | _ => false

/-- Result of `checkComponentValidity` (component-discovery.ts). -/
structure ComponentValidity where
  valid : Bool
  reason : Option String
  hasConfig : Option Bool
deriving DecidableEq

/-- `Boolean(comp && Object.keys(comp).length > 0)` for a level's partial
component config (per its declared mapping type). -/
def nonEmptyObj : Option ConfigValue → Bool
  | some (.obj (.cons _ _ _)) => true
  | _ => false

/--
`checkComponentValidity` (component-discovery.ts, part_006 lines 115-151):
validity of one component for one environment and optional region — the
component must exist at some level, and the three-way merge must contain no
null; `hasConfig` reports whether the checked level has its own non-empty
partial config.
-/
def checkComponentValidity (config : DeploymentConfig)
    (envSource : List (String × Fields)) (envName : String)
    (region : Option String) (componentName : String) : ComponentValidity :=
  let defaults := config.defaults.getD .nil
  let envCfg := ((envSource.find? (fun p => p.1 = envName)).map (·.2)).getD .nil
  let regionCfgVal : ConfigValue := match region with
    | some r => nullishD ((jget envCfg "regions").bind (fun rs => jprop rs r))
    | none => .obj .nil
  let defaultComp := jget defaults componentName
  let envComp := jget envCfg componentName
  let regionComp := jprop regionCfgVal componentName
  if jsFalsyO defaultComp && jsFalsyO envComp && jsFalsyO regionComp then
    ⟨false, some "component_not_found", none⟩
  else
    let merged := deepMerge [nullishD defaultComp, nullishD envComp, nullishD regionComp]
    match findNullValue merged "" with
    | some p => ⟨false, some ("null_value_at_" ++ p), none⟩
    | none =>
        let hasConfig := match region with
          | some _ => nonEmptyObj regionComp
          | none => nonEmptyObj envComp
        ⟨true, none, some hasConfig⟩

/-- `isComponentRegionAgnostic` of the availability scan (part_006 lines
23-38): `_regionAgnostic === true` on the defaults+env merge. -/
def isRegionAgnosticScan (config : DeploymentConfig)
    (envSource : List (String × Fields)) (envName componentName : String) : Bool :=
  let defaults := config.defaults.getD .nil
  let envCfg := ((envSource.find? (fun p => p.1 = envName)).map (·.2)).getD .nil
  match jget (deepMerge
      [nullishD (jget defaults componentName),
       nullishD (jget envCfg componentName)]) "_regionAgnostic" with
  | some (.bool true) => true
  | _ => false

/-- Per-region entry of the availability report. -/
structure RegionalValidity where
  region : String
  valid : Bool
  hasConfig : Option Bool
  target : Option String
  reason : Option String
deriving DecidableEq

/-- The env-level entry of the availability report. -/
structure LevelInfo where
  valid : Bool
  hasConfig : Option Bool
  target : Option String
  reason : Option String
deriving DecidableEq

/-- One environment's availability for one component. -/
structure EnvAvailability where
  available : Bool
  envLevel : LevelInfo
  regions : Option (List RegionalValidity)
  regionAgnostic : Option Bool
deriving DecidableEq

/-- One region's entry of the availability report. -/
def regionCheckEntry (config : DeploymentConfig)
    (envSource : List (String × Fields)) (envName componentName r : String) :
    RegionalValidity :=
  let res := checkComponentValidity config envSource envName (some r) componentName
  if res.valid then
    ⟨r, true, res.hasConfig, some (envName ++ "-" ++ getRegionShortCode r), none⟩
  else
    ⟨r, false, none, none, res.reason⟩

/--
`getComponentEnvAvailability` (part_006 lines 45-83): check the bare
environment level, then — unless the component is region-agnostic — every
declared region; the environment is available when the env level is valid
or any region is.
-/
def getComponentEnvAvailability (config : DeploymentConfig)
    (envSource : List (String × Fields)) (envName : String)
    (regions : List String) (componentName : String) : EnvAvailability :=
  let regionAgnostic := isRegionAgnosticScan config envSource envName componentName
  let envResult := checkComponentValidity config envSource envName none componentName
  let regionResults : List RegionalValidity :=
    if !regionAgnostic then
      regions.map (regionCheckEntry config envSource envName componentName)
    else []
  let anyRegionValid := regionResults.any (·.valid)
  { available := envResult.valid || anyRegionValid
    envLevel :=
      if envResult.valid then ⟨true, envResult.hasConfig, some envName, none⟩
      else ⟨false, none, none, envResult.reason⟩
    regions := if regionResults.isEmpty then none else some regionResults
    regionAgnostic := if regionAgnostic then some true else none }

/-- Region-level loop of `getAllComponentNames`: mapping-valued children of
every truthy region entry (falsy entries are skipped by the source). -/
def scanRegionKeys : List String → Fields → List String
  | acc, .nil => acc
  | acc, .cons _ (.obj o) rest =>
      scanRegionKeys
        (addKeys acc ((fkeys o).filter (fun k => isComponentVal (jget o k)))) rest
  | acc, .cons _ _ rest => scanRegionKeys acc rest

/-- One environment's step of `getAllComponentNames`: env-level mapping
children other than the reserved keys, then the region-level mapping
children. -/
def scanEnvStep (acc : List String) (p : String × Fields) : List String :=
  let envCfg := p.2
  let acc1 := addKeys acc ((fkeys envCfg).filter (fun k =>
    k ≠ "regions" && k ≠ "accountId" && isComponentVal (jget envCfg k)))
  match jget envCfg "regions" with
  | some (.obj rs) => scanRegionKeys acc1 rs
  | _ => acc1

/--
`getAllComponentNames` (part_006 lines 157-201): every direct child of
`defaults` (no type filter in the source), then per environment the
mapping-valued children other than the reserved keys `regions` and
`accountId`, then the mapping-valued children of every region entry.
-/
def getAllComponentNames (config : DeploymentConfig) : List String :=
  let k0 := addKeys [] (fkeys (config.defaults.getD .nil))
  match config.environments with
  | none => k0
  | some envs => envs.foldl scanEnvStep k0

/-! Specification-side predicates and helper notions used by the theorems. -/

/-- The entries of an object, as a Lean list. -/
def entries : Fields → List (String × ConfigValue)
  | .nil => []
  | .cons k v rest => (k, v) :: entries rest

/-- Concatenation of two objects (no deduplication). -/
def fappend : Fields → Fields → Fields
  | .nil, b => b
  | .cons k v rest, b => .cons k v (fappend rest b)

/-- The per-key specification of one merge step: an absent incoming value
keeps the accumulated one; two mappings recurse; anything else (arrays and
`null` included) is replaced wholesale by the incoming value. -/
def mergedKeyVal (av bv : Option ConfigValue) : Option ConfigValue :=
  match bv, av with
  | none, _ => av
  | some (.obj ov), some (.obj rv) => some (.obj (mergeTwo rv ov))
  | some bv, _ => some bv

mutual

/-- No key beginning with `_` occurs at any mapping depth (mappings nested
inside arrays are not inspected). -/
def noUM : ConfigValue → Bool
  | .obj o => noUMF o
  | _ => true

/-- `noUM` on the entries of a mapping. -/
def noUMF : Fields → Bool
  | .nil => true
  | .cons k v rest => !startsUnderscore k && noUM v && noUMF rest

end

mutual

/-- A key beginning with `_` occurs somewhere, arrays included. -/
def anyUnderscoreKey : ConfigValue → Bool
  | .obj o => anyUnderscoreKeyF o
  | .arr xs => anyUnderscoreKeyL xs
  | _ => false

def anyUnderscoreKeyF : Fields → Bool
  | .nil => false
  | .cons k v rest =>
      startsUnderscore k || anyUnderscoreKey v || anyUnderscoreKeyF rest

def anyUnderscoreKeyL : ValList → Bool
  | .nil => false
  | .cons v rest => anyUnderscoreKey v || anyUnderscoreKeyL rest

end

mutual

/-- `null` occurs as an array element somewhere in the value. -/
def hasNullInArray : ConfigValue → Bool
  | .obj o => hasNullInArrayF o
  | .arr xs => hasNullInArrayL xs
  | _ => false

def hasNullInArrayF : Fields → Bool
  | .nil => false
  | .cons _ v rest => hasNullInArray v || hasNullInArrayF rest

def hasNullInArrayL : ValList → Bool
  | .nil => false
  | .cons .null _ => true
  | .cons v rest => hasNullInArray v || hasNullInArrayL rest

end

/-- Every value of the object is a non-mapping. -/
def allValsNonObj : Fields → Bool
  | .nil => true
  | .cons _ v rest => isNonComponentVal v && allValsNonObj rest

/-- What one environment entry can contribute to the availability scan's
component-name list. -/
def envContribution (p : String × Fields) (k : String) : Prop :=
  (k ≠ "regions" ∧ k ≠ "accountId" ∧ isComponentVal (jget p.2 k) = true)
  ∨ (∃ rs, jget p.2 "regions" = some (.obj rs) ∧
      ∃ kv ∈ entries rs, ∃ o, kv.2 = ConfigValue.obj o ∧
        isComponentVal (jget o k) = true)

/-- Options asking for a plain nested resolve of one environment, nothing
else. -/
def plainOpts (env : String) : MergeOptions :=
  ⟨env, none, none, none, none, false, none, none⟩

/-- Document whose only component carries `null` inside an array value. -/
def cfgNullArr : DeploymentConfig :=
  ⟨none, some [("dev", fieldsOf
    [("comp", .obj (fieldsOf [("xs", .arr (valsOf [.null]))]))])]⟩

/-- The resolved output of `cfgNullArr` for `dev`. -/
def resNullArr : Fields := fieldsOf
  [("comp", .obj (fieldsOf [("xs", .arr (valsOf [.null]))])),
   ("env_name", .str "dev"), ("env_config_name", .str "dev"),
   ("region", .str ""), ("region_short", .str ""),
   ("is_ephemeral", .bool false)]

/-- Document whose only component hides a `_`-prefixed key inside an array
element. -/
def cfgUnderscoreArr : DeploymentConfig :=
  ⟨none, some [("dev", fieldsOf
    [("comp", .obj (fieldsOf
      [("xs", .arr (valsOf [.obj (fieldsOf [("_x", .num 1)])]))]))])]⟩

/-- The resolved output of `cfgUnderscoreArr` for `dev`. -/
def resUnderscoreArr : Fields := fieldsOf
  [("comp", .obj (fieldsOf
     [("xs", .arr (valsOf [.obj (fieldsOf [("_x", .num 1)])]))])),
   ("env_name", .str "dev"), ("env_config_name", .str "dev"),
   ("region", .str ""), ("region_short", .str ""),
   ("is_ephemeral", .bool false)]

/-- Document whose `defaults` has a scalar direct child. -/
def cfgScalarDefault : DeploymentConfig :=
  ⟨some (fieldsOf [("s", .num 1)]), some [("dev", .nil)]⟩

/-- Document with a single all-null component. -/
def cfgAllNull : DeploymentConfig :=
  ⟨some (fieldsOf [("db", .obj (fieldsOf [("host", .null)]))]),
   some [("dev", .nil)]⟩

/-! Basic lemmas about object lookup, assignment and merge. -/

@[simp]
theorem jget_nil (k : String) : jget .nil k = none := rfl

theorem jget_jset_self : ∀ (o : Fields) (k : String) (v : ConfigValue),
    jget (jset o k v) k = some v
  | .nil, k, v => by simp [jget, jset]
  | .cons k' v' rest, k, v => by
      by_cases h : k' = k
      · simp [jget, jset, h]
      · simp [jget, jset, h, jget_jset_self rest k v]

theorem jget_jset_ne : ∀ (o : Fields) (k' : String) (v : ConfigValue) (k : String),
    k' ≠ k → jget (jset o k' v) k = jget o k
  | .nil, k', v, k, h => by simp [jget, jset, h]
  | .cons k1 v1 rest, k', v, k, h => by
      by_cases h1 : k1 = k'
      · subst h1
        simp [jget, jset, h]
      · by_cases h2 : k1 = k
        · subst h2
          simp [jget, jset, h1]
        · simp [jget, jset, h1, h2, jget_jset_ne rest k' v k h]

theorem jget_eq_none_of_not_mem : ∀ (o : Fields) (k : String),
    k ∉ fkeys o → jget o k = none
  | .nil, _, _ => rfl
  | .cons k1 v1 rest, k, h => by
      have h1 : k1 ≠ k := fun e => h (by simp [fkeys, e])
      have h2 : k ∉ fkeys rest := fun e => h (by simp [fkeys, e])
      simp [jget, h1, jget_eq_none_of_not_mem rest k h2]

theorem fkeys_jset : ∀ (o : Fields) (k : String) (v : ConfigValue),
    fkeys (jset o k v) = if k ∈ fkeys o then fkeys o else fkeys o ++ [k]
  | .nil, k, v => by simp [fkeys, jset]
  | .cons k1 v1 rest, k, v => by
      by_cases h : k1 = k
      · simp [fkeys, jset, h]
      · have hne : ¬k = k1 := fun e => h e.symm
        simp [fkeys, jset, h, hne, fkeys_jset rest k v]
        split <;> simp

theorem nodup_jset (o : Fields) (k : String) (v : ConfigValue)
    (h : (fkeys o).Nodup) : (fkeys (jset o k v)).Nodup := by
  rw [fkeys_jset]
  split
  · exact h
  · simp only [List.nodup_append, List.nodup_cons, List.nodup_nil]
    refine ⟨h, by simp, ?_⟩
    intro a ha
    simp only [List.mem_singleton]
    intro e
    subst e
    exact absurd ha (by assumption)

/-- Unfolding of one step of the merge loop, for an arbitrary incoming
value. -/
theorem mergeTwo_cons (r : Fields) (k : String) (v : ConfigValue) (rest : Fields) :
    mergeTwo r (.cons k v rest) =
      mergeTwo (jset r k (match v, jget r k with
        | .obj ov, some (.obj rv) => .obj (mergeTwo rv ov)
        | _, _ => v)) rest := by
  cases v with
  | obj ov =>
      show (match jget r k with
        | some (.obj rv) => mergeTwo (jset r k (.obj (mergeTwo rv ov))) rest
        | _ => mergeTwo (jset r k (.obj ov)) rest) = _
      cases hj : jget r k with
      | none => rfl
      | some w => cases w <;> rfl
  | null => rfl
  | bool b => rfl
  | num n => rfl
  | str s => rfl
  | arr xs => rfl

theorem nodup_mergeTwo : ∀ (o r : Fields), (fkeys r).Nodup →
    (fkeys (mergeTwo r o)).Nodup
  | .nil, _, h => h
  | .cons k v rest, r, h => by
      rw [mergeTwo_cons]
      exact nodup_mergeTwo rest _ (nodup_jset _ _ _ h)

@[simp]
theorem fappend_nil : ∀ (a : Fields), fappend a .nil = a
  | .nil => rfl
  | .cons k v rest => by simp [fappend, fappend_nil rest]

theorem fappend_assoc : ∀ (a b c : Fields),
    fappend (fappend a b) c = fappend a (fappend b c)
  | .nil, _, _ => rfl
  | .cons k v rest, b, c => by simp [fappend, fappend_assoc rest b c]

theorem jget_fappend : ∀ (a b : Fields) (k : String),
    jget (fappend a b) k = match jget a k with
      | some v => some v
      | none => jget b k
  | .nil, b, k => rfl
  | .cons k1 v1 rest, b, k => by
      by_cases h : k1 = k
      · simp [fappend, jget, h]
      · simp [fappend, jget, h, jget_fappend rest b k]

theorem jset_eq_fappend_of_none : ∀ (a : Fields) (k : String) (v : ConfigValue),
    jget a k = none → jset a k v = fappend a (.cons k v .nil)
  | .nil, k, v, _ => rfl
  | .cons k1 v1 rest, k, v, h => by
      by_cases h1 : k1 = k
      · simp [jget, h1] at h
      · simp [jset, fappend, h1]
        exact jset_eq_fappend_of_none rest k v (by simpa [jget, h1] using h)

/-- The merge step with no accumulated value keeps the incoming value
unchanged. -/
theorem mergeStep_none (v : ConfigValue) :
    (match v, (none : Option ConfigValue) with
      | .obj ov, some (.obj rv) => ConfigValue.obj (mergeTwo rv ov)
      | _, _ => v) = v := by
  cases v <;> rfl

/-- Merging into an object disjoint from the incoming keys appends the
incoming entries unchanged. -/
theorem mergeTwo_disjoint : ∀ (o a : Fields),
    (∀ k ∈ fkeys o, jget a k = none) → (fkeys o).Nodup →
    mergeTwo a o = fappend a o
  | .nil, a, _, _ => by simp [mergeTwo]
  | .cons k v rest, a, hdis, hnd => by
      have hk : jget a k = none := hdis k (by simp [fkeys])
      rw [mergeTwo_cons, hk, mergeStep_none, jset_eq_fappend_of_none a k v hk]
      have hnd1 : (fkeys rest).Nodup := (List.nodup_cons.mp (by simpa [fkeys] using hnd)).2
      have hkmem : k ∉ fkeys rest := (List.nodup_cons.mp (by simpa [fkeys] using hnd)).1
      rw [mergeTwo_disjoint rest (fappend a (.cons k v .nil)) ?_ hnd1]
      · rw [fappend_assoc]
        rfl
      · intro k1 h1
        rw [jget_fappend, hdis k1 (by simp [fkeys, h1])]
        have : k ≠ k1 := fun e => hkmem (e ▸ h1)
        simp [jget, this]

/-- Merging an object with unique keys into the empty object is the
identity (the shallow copy the variadic entry point performs). -/
theorem mergeTwo_nil_left (o : Fields) (h : (fkeys o).Nodup) :
    mergeTwo .nil o = o := by
  rw [mergeTwo_disjoint o .nil (fun _ _ => rfl) h]
  rfl

theorem mergedKeyVal_some (av : Option ConfigValue) (v1 : ConfigValue) :
    mergedKeyVal av (some v1) =
      some (match v1, av with
        | .obj ov, some (.obj rv) => ConfigValue.obj (mergeTwo rv ov)
        | _, _ => v1) := by
  cases av with
  | none => cases v1 <;> rfl
  | some w => cases v1 <;> cases w <;> rfl

/-- Per-key characterization of one merge pass: for every key, the merged
value recurses exactly when both sides hold mappings and otherwise takes the
incoming value, keys absent from the incoming mapping keeping the
accumulated value. -/
theorem jget_mergeTwo : ∀ (b a : Fields) (k : String), (fkeys b).Nodup →
    jget (mergeTwo a b) k = mergedKeyVal (jget a k) (jget b k)
  | .nil, a, k, _ => rfl
  | .cons k1 v1 rest, a, k, h => by
      have hnd := List.nodup_cons.mp (show (k1 :: fkeys rest).Nodup from h)
      rw [mergeTwo_cons]
      by_cases hk : k1 = k
      · subst hk
        rw [jget_mergeTwo rest _ k1 hnd.2,
          jget_eq_none_of_not_mem rest k1 hnd.1, jget_jset_self]
        have hb : jget (Fields.cons k1 v1 rest) k1 = some v1 := by simp [jget]
        rw [hb, mergedKeyVal_some]
        rfl
      · have hb : jget (Fields.cons k1 v1 rest) k = jget rest k := by
          simp [jget, hk]
        rw [jget_mergeTwo rest _ k hnd.2, jget_jset_ne _ _ _ _ hk, hb]

/--
C1: for every ordered sequence of mappings and every key, `deepMerge`
recurses only when both the accumulated value and the incoming value are
mappings, otherwise the incoming value replaces the accumulated value
wholesale; in particular a later `null` wins, a later concrete value clears
an earlier `null`, arrays are replaced and never merged element-wise, and
keys absent from later mappings keep the earlier value.
-/
theorem deepMerge_override_semantics :
    (∀ (a b : Fields) (k : String), (fkeys b).Nodup →
      jget (mergeTwo a b) k = mergedKeyVal (jget a k) (jget b k))
  ∧ (∀ v : ConfigValue,
      deepMerge [.obj (fieldsOf [("x", v)]), .obj (fieldsOf [("x", .null)])]
        = fieldsOf [("x", .null)])
  ∧ (∀ v : ConfigValue,
      deepMerge [.obj (fieldsOf [("x", .null)]), .obj (fieldsOf [("x", v)])]
        = fieldsOf [("x", v)])
  ∧ deepMerge [.obj (fieldsOf [("a", .arr (valsOf [.num 1, .num 2]))]),
      .obj (fieldsOf [("a", .arr (valsOf [.num 3]))])]
      = fieldsOf [("a", .arr (valsOf [.num 3]))] := by
  refine ⟨fun a b k h => jget_mergeTwo b a k h, ?_, ?_, rfl⟩
  · intro v; cases v <;> rfl
  · intro v; cases v <;> rfl

/-- Witness for C1 at concrete inputs: a later `null` replaces a mapping
value under the per-key characterization. -/
theorem deepMerge_override_semantics_witness :
    jget (mergeTwo (fieldsOf [("x", .num 1), ("y", .num 2)])
      (fieldsOf [("x", .null)])) "x"
      = mergedKeyVal (some (.num 1)) (some .null) ∧
    jget (mergeTwo (fieldsOf [("x", .num 1), ("y", .num 2)])
      (fieldsOf [("x", .null)])) "y"
      = mergedKeyVal (some (.num 2)) none :=
  ⟨deepMerge_override_semantics.1 _ _ "x" (by decide),
   deepMerge_override_semantics.1 _ _ "y" (by decide)⟩

/--
C8: the variadic `merge(a, b, c)` equals the left fold
`merge(merge(a, b), c)`, for all mappings `a`, `b`, `c`.
-/
theorem deepMerge_assoc_fold (a b c : Fields) :
    deepMerge [.obj a, .obj b, .obj c] =
      deepMerge [.obj (deepMerge [.obj a, .obj b]), .obj c] := by
  show mergeTwo (mergeTwo (mergeTwo .nil a) b) c
      = mergeTwo (mergeTwo .nil (mergeTwo (mergeTwo .nil a) b)) c
  rw [mergeTwo_nil_left _ (nodup_mergeTwo _ _
    (nodup_mergeTwo _ _ (show (fkeys .nil).Nodup from List.nodup_nil)))]

/--
C4: `parseTarget` tries every known full region name as a `-<fullname>`
suffix first, then every known short code as a `-<code>` suffix; the first
match strips that suffix and returns the full region name; when no known
region suffix matches, the entire string is the environment name and the
region is unset.  The two worked examples of the spec hold.
-/
theorem parseTarget_spec :
    parseTarget "dev-usw2" = ("dev", some "us-west-2")
  ∧ parseTarget "my-env-name-usw2" = ("my-env-name", some "us-west-2")
  ∧ (∀ t : String,
      (∀ p ∈ awsRegionMapping,
        strEndsWith t ("-" ++ p.2) = false ∧ strEndsWith t ("-" ++ p.1) = false) →
      parseTarget t = (t, none))
  ∧ (∀ (t env r : String), parseTarget t = (env, some r) →
      r ∈ awsRegionMapping.map Prod.snd ∧
      ∃ suffix, strEndsWith t suffix = true ∧ env = dropSuffix t suffix ∧
        (suffix = "-" ++ r ∨ ∃ c, (c, r) ∈ awsRegionMapping ∧ suffix = "-" ++ c)) := by
  refine ⟨by decide, by decide, ?_, ?_⟩
  · intro t h
    have h1 : awsRegionMapping.find? (fun p => strEndsWith t ("-" ++ p.2)) = none :=
      List.find?_eq_none.mpr (fun x hx => by simp [(h x hx).1])
    have h2 : awsRegionMapping.find? (fun p => strEndsWith t ("-" ++ p.1)) = none :=
      List.find?_eq_none.mpr (fun x hx => by simp [(h x hx).2])
    simp [parseTarget, h1, h2]
  · intro t env r hpt
    unfold parseTarget at hpt
    cases h1 : awsRegionMapping.find? (fun p => strEndsWith t ("-" ++ p.2)) with
    | some p =>
        rw [h1] at hpt
        have hmem := List.mem_of_find?_eq_some h1
        have hends := List.find?_some h1
        have hr : p.2 = r := by
          have := congrArg Prod.snd hpt
          simpa using this
        have henv : env = dropSuffix t ("-" ++ p.2) := by
          have := congrArg Prod.fst hpt
          simpa using this.symm
        subst hr
        exact ⟨List.mem_map.mpr ⟨p, hmem, rfl⟩,
          ⟨"-" ++ p.2, by simpa using hends, henv, Or.inl rfl⟩⟩
    | none =>
        rw [h1] at hpt
        cases h2 : awsRegionMapping.find? (fun p => strEndsWith t ("-" ++ p.1)) with
        | some p =>
            rw [h2] at hpt
            have hmem := List.mem_of_find?_eq_some h2
            have hends := List.find?_some h2
            have hr : p.2 = r := by
              have := congrArg Prod.snd hpt
              simpa using this
            have henv : env = dropSuffix t ("-" ++ p.1) := by
              have := congrArg Prod.fst hpt
              simpa using this.symm
            subst hr
            exact ⟨List.mem_map.mpr ⟨p, hmem, rfl⟩,
              ⟨"-" ++ p.1, by simpa using hends, henv,
                Or.inr ⟨p.1, by simpa using hmem, rfl⟩⟩⟩
        | none =>
            rw [h2] at hpt
            exact absurd (congrArg Prod.snd hpt) (by simp)

/-- Witness for C4: a target with no known region suffix keeps the whole
string as the environment name. -/
theorem parseTarget_spec_witness : parseTarget "justenv" = ("justenv", none) :=
  parseTarget_spec.2.2.1 "justenv" (by decide)

/--
C3: with a non-blank ephemeral prefix, the branch check enabled, a branch
name supplied, and no direct environment match, the resolver fails with the
`InvalidEphemeralBranchFormat` message when the branch does not match
`^<prefix>[a-z0-9_-]+$`; when it matches, it fails with the
`EphemeralNameMismatch` message exactly when the requested environment is
neither `"ephemeral"` nor the prefix-stripped branch name nor the full
branch name, and otherwise terminates with
`{envName: <stripped>, envConfigName: "ephemeral", isEphemeral: true}`.
-/
theorem determineEnvironment_branch_spec :
    ∀ (envSource : Option (List (String × Fields))) (env pfx b : String),
    isBlankPfx (some pfx) = false →
    b ≠ "" →
    ¬(env ≠ "ephemeral" ∧ (envLookup envSource env).isSome) →
    (branchMatchesPattern pfx b = false →
      determineEnvironment envSource env (some pfx) false (some b)
        = .error (branchFormatMsg pfx b))
    ∧ (branchMatchesPattern pfx b = true →
      (env ≠ "ephemeral" ∧ env ≠ stripPfx pfx b ∧ env ≠ b →
        determineEnvironment envSource env (some pfx) false (some b)
          = .error (nameMismatchMsg env b))
      ∧ ((env = "ephemeral" ∨ env = stripPfx pfx b ∨ env = b) →
        determineEnvironment envSource env (some pfx) false (some b)
          = .ok ⟨stripPfx pfx b, "ephemeral", true⟩)) := by
  intro envSource env pfx b h1 h2 h3
  have hred : determineEnvironment envSource env (some pfx) false (some b)
      = (if branchMatchesPattern pfx b then
          (if env ≠ "ephemeral" ∧ env ≠ stripPfx pfx b ∧ env ≠ b then
            .error (nameMismatchMsg env b)
          else .ok ⟨stripPfx pfx b, "ephemeral", true⟩)
        else .error (branchFormatMsg pfx b)) := by
    simp only [determineEnvironment, h1, if_neg h3, Bool.false_eq_true,
      if_false, Bool.if_false_left, Option.getD_some]
    simp [h2]
  refine ⟨fun hf => ?_, fun ht => ⟨fun hm => ?_, fun hok => ?_⟩⟩
  · rw [hred]; simp [hf]
  · rw [hred]; simp only [ht, if_true]; rw [if_pos hm]
  · rw [hred]
    have hnm : ¬(env ≠ "ephemeral" ∧ env ≠ stripPfx pfx b ∧ env ≠ b) := by
      rcases hok with h | h | h <;> simp [h]
    simp only [ht, if_true]; rw [if_neg hnm]

/-- Witness for C3: the spec's branch-derived scenario resolves to the
stripped branch name against the shared `ephemeral` entry. -/
theorem determineEnvironment_branch_spec_witness :
    determineEnvironment (some [("ephemeral", .nil)]) "feature-x"
      (some "ephemeral/") false (some "ephemeral/feature-x")
      = .ok ⟨stripPfx "ephemeral/" "ephemeral/feature-x", "ephemeral", true⟩ :=
  ((determineEnvironment_branch_spec (some [("ephemeral", .nil)]) "feature-x"
      "ephemeral/" "ephemeral/feature-x" (by decide) (by decide)
      (by decide)).2 (by decide)).2 (Or.inr (Or.inl (by decide)))

/-- Every ephemeral resolution of `determineEnvironment` looks the config up
under the literal name `ephemeral`. -/
theorem det_eph_configName : ∀ (es : Option (List (String × Fields))) (env : String)
    (pfx : Option String) (dis : Bool) (br : Option String) (d : DetEnvResult),
    determineEnvironment es env pfx dis br = .ok d → d.isEphemeral = true →
    d.envConfigName = "ephemeral" := by
  intro es env pfx dis br d h hE
  unfold determineEnvironment at h
  repeat' first
    | split at h
    | simp only [] at h
  all_goals first
    | (cases h; rfl)
    | (cases h; simp at hE)
    | simp at h

/--
C9: when environment resolution is ephemeral, the config lookup name is the
literal `"ephemeral"`, and if the document declares no environment entry of
that name the resolve fails with the environment-not-found error naming
`ephemeral` — whatever the branch options were.
-/
theorem resolve_ephemeral_requires_entry :
    ∀ (config : DeploymentConfig) (opts : MergeOptions) (d : DetEnvResult),
    determineEnvironment config.environments opts.env opts.ephPfx
      opts.disableCheck opts.branchName = .ok d →
    d.isEphemeral = true →
    d.envConfigName = "ephemeral" ∧
    (envLookup config.environments "ephemeral" = none →
      mergeConfig config opts = .error (envNotFoundMsg "ephemeral")) := by
  intro config opts d h hE
  have hc := det_eph_configName _ _ _ _ _ _ h hE
  refine ⟨hc, fun hnone => ?_⟩
  simp only [mergeConfig, h]
  rw [hc, hnone]

/-- Witness for C9: a trusted-ephemeral resolve against a document without
an `ephemeral` entry fails naming `ephemeral`. -/
theorem resolve_ephemeral_requires_entry_witness :
    mergeConfig ⟨none, some [("dev", .nil)]⟩
      ⟨"x", none, none, none, some "e/", true, none, none⟩
      = .error (envNotFoundMsg "ephemeral") :=
  (resolve_ephemeral_requires_entry ⟨none, some [("dev", .nil)]⟩
    ⟨"x", none, none, none, some "e/", true, none, none⟩
    ⟨"x", "ephemeral", true⟩ rfl rfl).2 rfl

theorem mem_addKeys : ∀ (ks acc : List String) (k : String),
    k ∈ addKeys acc ks ↔ k ∈ acc ∨ k ∈ ks
  | [], acc, k => by simp [addKeys]
  | k1 :: rest, acc, k => by
      have h1 : addKeys acc (k1 :: rest)
          = addKeys (if acc.contains k1 then acc else acc ++ [k1]) rest := rfl
      rw [h1, mem_addKeys rest _ k]
      by_cases hc : acc.contains k1
      · have hm : k1 ∈ acc := by simpa using hc
        simp only [hc, if_true, List.mem_cons]
        constructor
        · rintro (h | h)
          · exact Or.inl h
          · exact Or.inr (Or.inr h)
        · rintro (h | h | h)
          · exact Or.inl h
          · exact Or.inl (h ▸ hm)
          · exact Or.inr h
      · simp only [hc, if_false, List.mem_append, List.mem_singleton,
          List.mem_cons, Bool.false_eq_true]
        tauto

theorem mem_scanRegionKeys : ∀ (rs : Fields) (acc : List String) (k : String),
    k ∈ scanRegionKeys acc rs →
    k ∈ acc ∨ ∃ kv ∈ entries rs, ∃ o, kv.2 = ConfigValue.obj o ∧
      isComponentVal (jget o k) = true
  | .nil, acc, k, h => Or.inl h
  | .cons k1 (.obj o) rest, acc, k, h => by
      rcases mem_scanRegionKeys rest _ k h with h2 | ⟨kv, hkv, o', ho', hc⟩
      · rcases (mem_addKeys _ _ _).mp h2 with h3 | h3
        · exact Or.inl h3
        · have := List.mem_filter.mp h3
          exact Or.inr ⟨(k1, .obj o), by simp [entries], o, rfl, this.2⟩
      · exact Or.inr ⟨kv, by simp [entries, hkv], o', ho', hc⟩
  | .cons k1 .null rest, acc, k, h => by
      rcases mem_scanRegionKeys rest _ k h with h2 | ⟨kv, hkv, o', ho', hc⟩
      · exact Or.inl h2
      · exact Or.inr ⟨kv, by simp [entries, hkv], o', ho', hc⟩
  | .cons k1 (.bool b) rest, acc, k, h => by
      rcases mem_scanRegionKeys rest _ k h with h2 | ⟨kv, hkv, o', ho', hc⟩
      · exact Or.inl h2
      · exact Or.inr ⟨kv, by simp [entries, hkv], o', ho', hc⟩
  | .cons k1 (.num n) rest, acc, k, h => by
      rcases mem_scanRegionKeys rest _ k h with h2 | ⟨kv, hkv, o', ho', hc⟩
      · exact Or.inl h2
      · exact Or.inr ⟨kv, by simp [entries, hkv], o', ho', hc⟩
  | .cons k1 (.str s) rest, acc, k, h => by
      rcases mem_scanRegionKeys rest _ k h with h2 | ⟨kv, hkv, o', ho', hc⟩
      · exact Or.inl h2
      · exact Or.inr ⟨kv, by simp [entries, hkv], o', ho', hc⟩
  | .cons k1 (.arr xs) rest, acc, k, h => by
      rcases mem_scanRegionKeys rest _ k h with h2 | ⟨kv, hkv, o', ho', hc⟩
      · exact Or.inl h2
      · exact Or.inr ⟨kv, by simp [entries, hkv], o', ho', hc⟩

theorem mem_scanEnvStep (acc : List String) (p : String × Fields) (k : String)
    (h : k ∈ scanEnvStep acc p) : k ∈ acc ∨ envContribution p k := by
  simp only [scanEnvStep] at h
  rcases hr : jget p.2 "regions" with _ | v
  · rw [hr] at h
    rcases (mem_addKeys _ _ _).mp h with h2 | h2
    · exact Or.inl h2
    · have := List.mem_filter.mp h2
      have hp := this.2
      simp only [Bool.and_eq_true, decide_eq_true_eq] at hp
      exact Or.inr (Or.inl ⟨hp.1.1, hp.1.2, hp.2⟩)
  · rw [hr] at h
    cases v with
    | obj rs =>
        rcases mem_scanRegionKeys rs _ k h with h2 | ⟨kv, hkv, o, ho, hc⟩
        · rcases (mem_addKeys _ _ _).mp h2 with h3 | h3
          · exact Or.inl h3
          · have := List.mem_filter.mp h3
            have hp := this.2
            simp only [Bool.and_eq_true, decide_eq_true_eq] at hp
            exact Or.inr (Or.inl ⟨hp.1.1, hp.1.2, hp.2⟩)
        · exact Or.inr (Or.inr ⟨rs, hr, kv, hkv, o, ho, hc⟩)
    | null =>
        rcases (mem_addKeys _ _ _).mp h with h2 | h2
        · exact Or.inl h2
        · have := List.mem_filter.mp h2
          have hp := this.2
          simp only [Bool.and_eq_true, decide_eq_true_eq] at hp
          exact Or.inr (Or.inl ⟨hp.1.1, hp.1.2, hp.2⟩)
    | bool b =>
        rcases (mem_addKeys _ _ _).mp h with h2 | h2
        · exact Or.inl h2
        · have := List.mem_filter.mp h2
          have hp := this.2
          simp only [Bool.and_eq_true, decide_eq_true_eq] at hp
          exact Or.inr (Or.inl ⟨hp.1.1, hp.1.2, hp.2⟩)
    | num n =>
        rcases (mem_addKeys _ _ _).mp h with h2 | h2
        · exact Or.inl h2
        · have := List.mem_filter.mp h2
          have hp := this.2
          simp only [Bool.and_eq_true, decide_eq_true_eq] at hp
          exact Or.inr (Or.inl ⟨hp.1.1, hp.1.2, hp.2⟩)
    | str s =>
        rcases (mem_addKeys _ _ _).mp h with h2 | h2
        · exact Or.inl h2
        · have := List.mem_filter.mp h2
          have hp := this.2
          simp only [Bool.and_eq_true, decide_eq_true_eq] at hp
          exact Or.inr (Or.inl ⟨hp.1.1, hp.1.2, hp.2⟩)
    | arr xs =>
        rcases (mem_addKeys _ _ _).mp h with h2 | h2
        · exact Or.inl h2
        · have := List.mem_filter.mp h2
          have hp := this.2
          simp only [Bool.and_eq_true, decide_eq_true_eq] at hp
          exact Or.inr (Or.inl ⟨hp.1.1, hp.1.2, hp.2⟩)

theorem mem_foldl_scanEnvStep : ∀ (envs : List (String × Fields))
    (acc : List String) (k : String),
    k ∈ envs.foldl scanEnvStep acc →
    k ∈ acc ∨ ∃ p ∈ envs, envContribution p k
  | [], acc, k, h => Or.inl h
  | p1 :: rest, acc, k, h => by
      rcases mem_foldl_scanEnvStep rest _ k h with h2 | ⟨p, hp, hcon⟩
      · rcases mem_scanEnvStep acc p1 k h2 with h3 | h3
        · exact Or.inl h3
        · exact Or.inr ⟨p1, by simp, h3⟩
      · exact Or.inr ⟨p, by simp [hp], hcon⟩

/--
C7 (amended): in the resolver's component universe every key is
mapping-valued at defaults, at the environment level (and is not `regions`),
or at the active region level; in the availability scan's discovered list
every key is either a direct child of `defaults` — of any type, scalars and
arrays included — or a mapping-valued environment-level child other than the
reserved `regions` and `accountId`, or a mapping-valued region-level child.
-/
theorem component_discovery_sound :
    (∀ (config : DeploymentConfig) (envCfg : Fields) (fullRegion : Option String)
      (k : String), k ∈ getAllComponentKeys config envCfg fullRegion →
      isComponentVal (componentAtDefaults config k) = true
      ∨ (k ≠ "regions" ∧ isComponentVal (jget envCfg k) = true)
      ∨ (∃ fr rc, fullRegion = some fr ∧ jget (regionsObj envCfg) fr = some (.obj rc) ∧
          isComponentVal (jget rc k) = true))
  ∧ (∀ (config : DeploymentConfig) (k : String), k ∈ getAllComponentNames config →
      k ∈ fkeys (config.defaults.getD .nil)
      ∨ (∃ envs, config.environments = some envs ∧ ∃ p ∈ envs, envContribution p k)) := by
  constructor
  · intro config envCfg fullRegion k h
    unfold getAllComponentKeys at h
    rcases (mem_addKeys _ _ _).mp h with h1 | h1
    · rcases (mem_addKeys _ _ _).mp h1 with h2 | h2
      · rcases (mem_addKeys _ _ _).mp h2 with h3 | h3
        · exact absurd h3 (List.not_mem_nil k)
        · -- defaults contribution
          left
          cases hd : config.defaults with
          | none => rw [hd] at h3; exact absurd h3 (List.not_mem_nil k)
          | some d =>
              rw [hd] at h3
              have := List.mem_filter.mp h3
              simpa [componentAtDefaults, hd] using this.2
      · -- env contribution
        right; left
        have := List.mem_filter.mp h2
        have hp := this.2
        simp only [Bool.and_eq_true, decide_eq_true_eq] at hp
        exact ⟨hp.2, hp.1⟩
    · -- region contribution
      right; right
      cases hfr : fullRegion with
      | none => rw [hfr] at h1; exact absurd h1 (List.not_mem_nil k)
      | some fr =>
          rw [hfr] at h1
          simp only [] at h1
          cases hrc : jget (regionsObj envCfg) fr with
          | none => rw [hrc] at h1; exact absurd h1 (List.not_mem_nil k)
          | some rcv =>
              rw [hrc] at h1
              cases rcv with
              | obj rc =>
                  have := List.mem_filter.mp h1
                  exact ⟨fr, rc, rfl, hrc, this.2⟩
              | null => exact absurd h1 (List.not_mem_nil k)
              | bool b => exact absurd h1 (List.not_mem_nil k)
              | num n => exact absurd h1 (List.not_mem_nil k)
              | str s => exact absurd h1 (List.not_mem_nil k)
              | arr xs => exact absurd h1 (List.not_mem_nil k)
  · intro config k h
    unfold getAllComponentNames at h
    cases he : config.environments with
    | none =>
        rw [he] at h
        rcases (mem_addKeys _ _ _).mp h with h1 | h1
        · exact absurd h1 (List.not_mem_nil k)
        · exact Or.inl h1
    | some envs =>
        rw [he] at h
        rcases mem_foldl_scanEnvStep envs _ k h with h1 | ⟨p, hp, hcon⟩
        · rcases (mem_addKeys _ _ _).mp h1 with h2 | h2
          · exact absurd h2 (List.not_mem_nil k)
          · exact Or.inl h2
        · exact Or.inr ⟨envs, rfl, p, hp, hcon⟩

/-- Witness for the amended C7, applied at a two-level document. -/
theorem component_discovery_sound_witness :
    isComponentVal (componentAtDefaults cfgAllNull "db") = true
    ∨ ("db" ≠ "regions" ∧ isComponentVal (jget Fields.nil "db") = true)
    ∨ (∃ fr rc, (none : Option String) = some fr ∧
        jget (regionsObj Fields.nil) fr = some (.obj rc) ∧
        isComponentVal (jget rc "db") = true) :=
  component_discovery_sound.1 cfgAllNull .nil none "db" (by decide)

/--
Counterexample to C7 as stated: the availability scan's discovered-component
list includes the scalar direct child `s` of `defaults`, which the claim
says can never appear as a component name.
-/
theorem component_discovery_counterexample :
    getAllComponentNames cfgScalarDefault = ["s"]
    ∧ jget (fieldsOf [("s", .num 1)]) "s" = some (.num 1) :=
  ⟨rfl, rfl⟩

/--
C10: the null scans treat arrays as opaque leaves — an object whose value is
an array is never scanned inside, whatever the elements — and consequently
there is a document for which resolve succeeds while its output still
contains `null` as an array element.
-/
theorem null_scan_arrays_opaque :
    (∀ (k path : String) (xs : ValList),
      findNullValue (.cons k (.arr xs) .nil) path = none)
  ∧ (∀ (k : String) (xs : ValList),
      hasNullValues (.cons k (.arr xs) .nil) = false)
  ∧ (∀ (k path : String) (xs : ValList),
      validateNoNullValues (.cons k (.arr xs) .nil) path = .ok ())
  ∧ mergeConfig cfgNullArr (plainOpts "dev") = .ok resNullArr
  ∧ hasNullInArray (.obj resNullArr) = true :=
  ⟨fun _ _ _ => rfl, fun _ _ => rfl, fun _ _ _ => rfl, rfl, by decide⟩

/--
C6: in the availability scan, an environment is reported available exactly
when the bare-env check is valid or at least one declared region's check is
valid; and when the component's defaults+env merge has
`_regionAgnostic: true`, the region-level checks are skipped entirely and
only the env-level result is reported.
-/
theorem availability_env_or_region :
    ∀ (config : DeploymentConfig) (envSource : List (String × Fields))
      (envName : String) (regions : List String) (componentName : String),
    (isRegionAgnosticScan config envSource envName componentName = false →
      ((getComponentEnvAvailability config envSource envName regions
          componentName).available = true ↔
        ((checkComponentValidity config envSource envName none
            componentName).valid = true
         ∨ ∃ r ∈ regions, (checkComponentValidity config envSource envName
            (some r) componentName).valid = true)))
  ∧ (isRegionAgnosticScan config envSource envName componentName = true →
      (getComponentEnvAvailability config envSource envName regions
          componentName).regions = none
      ∧ (getComponentEnvAvailability config envSource envName regions
          componentName).available
        = (checkComponentValidity config envSource envName none
            componentName).valid) := by
  intro config envSource envName regions componentName
  have hval : ∀ r, (regionCheckEntry config envSource envName componentName r).valid
      = (checkComponentValidity config envSource envName (some r) componentName).valid := by
    intro r
    unfold regionCheckEntry
    by_cases hcv : (checkComponentValidity config envSource envName (some r)
        componentName).valid = true
    · simp [hcv]
    · simp only [Bool.not_eq_true] at hcv
      simp [hcv]
  constructor
  · intro hra
    unfold getComponentEnvAvailability
    rw [hra]
    simp only [Bool.not_false, if_true, Bool.or_eq_true, List.any_map,
      List.any_eq_true, Function.comp_apply, hval]
    constructor
    · rintro (h | ⟨x, hx, hv⟩)
      · exact Or.inl h
      · rcases List.mem_map.mp hx with ⟨r, hr, rfl⟩
        exact Or.inr ⟨r, hr, (hval r).symm.trans hv⟩
    · rintro (h | ⟨r, hr, hv⟩)
      · exact Or.inl h
      · exact Or.inr ⟨_, List.mem_map_of_mem _ hr, (hval r).trans hv⟩
  · intro hra
    unfold getComponentEnvAvailability
    rw [hra]
    simp

theorem validStep_fst (config : DeploymentConfig) (envCfg : Fields)
    (fullRegion regionOpt : Option String) (x : String) (y : String × Fields)
    (h : validStep config envCfg fullRegion regionOpt x = some y) : y.1 = x := by
  unfold validStep at h
  split at h
  · exact absurd h (by simp)
  · split at h
    · exact absurd h (by simp)
    · cases h
      rfl

theorem not_mem_valids_of_step_none (config : DeploymentConfig) (envCfg : Fields)
    (fullRegion regionOpt : Option String) (k : String)
    (h : validStep config envCfg fullRegion regionOpt k = none) :
    k ∉ (validComponents config envCfg fullRegion regionOpt).map Prod.fst := by
  intro hmem
  rcases List.mem_map.mp hmem with ⟨y, hy, hy1⟩
  rcases List.mem_filterMap.mp hy with ⟨x, _, hfx⟩
  have hx : y.1 = x := validStep_fst config envCfg fullRegion regionOpt x y hfx
  rw [hx] at hy1
  subst hy1
  rw [h] at hfx
  exact Option.noConfusion hfx

/--
C2: with no component filter, a discovered component is omitted from the
resolver's surviving-component list when the environment declares regions,
no region was supplied, and the component's defaults+env merge lacks
`_regionAgnostic: true`; it is also omitted when its three-level merged
config still scans to a null; and when at least one component was
discovered but none survive, resolve fails with the `NoValidComponents`
error message.
-/
theorem resolve_component_exclusions :
    ∀ (config : DeploymentConfig) (opts : MergeOptions) (det : DetEnvResult)
      (envCfg : Fields),
    determineEnvironment config.environments opts.env opts.ephPfx
      opts.disableCheck opts.branchName = .ok det →
    envLookup config.environments det.envConfigName = some envCfg →
    truthyStr opts.component = none →
    ((∀ k, envHasRegions envCfg = true → truthyStr opts.region = none →
        isComponentRegionAgnostic config envCfg k = false →
        k ∉ (validComponents config envCfg
              (normFullRegion (truthyStr opts.region))
              (truthyStr opts.region)).map Prod.fst)
    ∧ (∀ k, hasNullValues (getMergedComponentConfig config envCfg
          (normFullRegion (truthyStr opts.region)) k) = true →
        k ∉ (validComponents config envCfg
              (normFullRegion (truthyStr opts.region))
              (truthyStr opts.region)).map Prod.fst)
    ∧ (validComponents config envCfg (normFullRegion (truthyStr opts.region))
          (truthyStr opts.region) = [] →
       getAllComponentKeys config envCfg
          (normFullRegion (truthyStr opts.region)) ≠ [] →
       (truthyStr opts.region = none ∨ ∃ r, truthyStr opts.region = some r ∧
          ((lookupShortCode r).isSome = true ∨ isFullRegionName r = true)) →
       mergeConfig config opts = .error noValidComponentsMsg)) := by
  intro config opts det envCfg hdet henv hcomp
  refine ⟨?_, ?_, ?_⟩
  · intro k hhr hrn hra
    apply not_mem_valids_of_step_none
    unfold validStep
    rw [if_pos]
    simp [hhr, hrn, hra]
  · intro k hnull
    apply not_mem_valids_of_step_none
    unfold validStep
    split
    · rfl
    · simp only [hnull, if_true]
  · intro hval hkeys hregvalid
    simp only [mergeConfig, hdet]
    rw [henv]
    rcases hregvalid with hnone | ⟨r, hr, hv⟩
    · rw [hnone] at hval hkeys ⊢
      simp only [normFullRegion, Option.map_none'] at hval hkeys
      simp only [mergeConfigCore, hcomp]
      rw [if_pos]
      simp only [hval, List.isEmpty_nil, Bool.true_and, Bool.not_eq_true',
        List.isEmpty_eq_false]
      exact hkeys
    · rw [hr] at hval hkeys ⊢
      dsimp only
      have hcond : ((lookupShortCode r).isNone && !isFullRegionName r) = false := by
        rcases hv with h | h
        · rcases Option.isSome_iff_exists.mp h with ⟨a, ha⟩
          simp [ha]
        · simp [h]
      rw [hcond]
      simp only [Bool.false_eq_true, if_false]
      simp only [mergeConfigCore, hcomp]
      rw [if_pos]
      simp only [hval, List.isEmpty_nil, Bool.true_and, Bool.not_eq_true',
        List.isEmpty_eq_false]
      exact hkeys

/-- Witness for C2: a document whose only component is all-null resolves to
the `NoValidComponents` error. -/
theorem resolve_component_exclusions_witness :
    mergeConfig cfgAllNull (plainOpts "dev") = .error noValidComponentsMsg :=
  (resolve_component_exclusions cfgAllNull (plainOpts "dev")
      ⟨"dev", "dev", false⟩ .nil rfl rfl rfl).2.2 rfl (by decide) (Or.inl rfl)

theorem strip_noUMF : ∀ (o : Fields), noUMF (stripMetadataKeys o) = true
  | .nil => rfl
  | .cons k (.obj o') rest => by
      by_cases h : startsUnderscore k
      · simp [stripMetadataKeys, h, strip_noUMF rest]
      · simp [stripMetadataKeys, h, noUMF, noUM, strip_noUMF o', strip_noUMF rest]
  | .cons k .null rest => by
      by_cases h : startsUnderscore k <;>
        simp [stripMetadataKeys, h, noUMF, noUM, strip_noUMF rest]
  | .cons k (.bool b) rest => by
      by_cases h : startsUnderscore k <;>
        simp [stripMetadataKeys, h, noUMF, noUM, strip_noUMF rest]
  | .cons k (.num n) rest => by
      by_cases h : startsUnderscore k <;>
        simp [stripMetadataKeys, h, noUMF, noUM, strip_noUMF rest]
  | .cons k (.str s) rest => by
      by_cases h : startsUnderscore k <;>
        simp [stripMetadataKeys, h, noUMF, noUM, strip_noUMF rest]
  | .cons k (.arr xs) rest => by
      by_cases h : startsUnderscore k <;>
        simp [stripMetadataKeys, h, noUMF, noUM, strip_noUMF rest]

theorem noUMF_entry : ∀ (o : Fields) (k : String) (v : ConfigValue),
    noUMF o = true → (k, v) ∈ entries o → noUM v = true
  | .nil, _, _, _, hm => absurd hm (List.not_mem_nil _)
  | .cons k1 v1 rest, k, v, h, hm => by
      simp only [noUMF, Bool.and_eq_true] at h
      rcases List.mem_cons.mp hm with he | hm2
      · cases he
        exact h.1.2
      · exact noUMF_entry rest k v h.2 hm2

theorem jget_mem_entries : ∀ (o : Fields) (k : String) (v : ConfigValue),
    jget o k = some v → (k, v) ∈ entries o
  | .nil, _, _, h => Option.noConfusion h
  | .cons k1 v1 rest, k, v, h => by
      by_cases hk : k1 = k
      · subst hk
        simp [jget] at h
        simp [entries, h]
      · simp only [jget, hk, if_false] at h
        exact List.mem_cons_of_mem _ (jget_mem_entries rest k v h)

theorem jget_jset_cases (o : Fields) (k' : String) (v' : ConfigValue)
    (k : String) (v : ConfigValue) (h : jget (jset o k' v') k = some v) :
    (k = k' ∧ v = v') ∨ jget o k = some v := by
  by_cases hk : k' = k
  · subst hk
    rw [jget_jset_self] at h
    exact Or.inl ⟨rfl, (Option.some.inj h).symm⟩
  · rw [jget_jset_ne _ _ _ _ hk] at h
    exact Or.inr h

theorem jget_spreadInto : ∀ (extra base : Fields) (k : String) (v : ConfigValue),
    jget (spreadInto base extra) k = some v →
    (k, v) ∈ entries extra ∨ jget base k = some v
  | .nil, base, k, v, h => Or.inr h
  | .cons k1 v1 rest, base, k, v, h => by
      rcases jget_spreadInto rest (jset base k1 v1) k v h with hm | hj
      · exact Or.inl (List.mem_cons_of_mem _ hm)
      · rcases jget_jset_cases base k1 v1 k v hj with ⟨hk, hv⟩ | hj2
        · subst hk; subst hv
          exact Or.inl (by simp [entries])
        · exact Or.inr hj2

theorem foldl_jset_eq_spread : ∀ (l : List (String × Fields)) (base : Fields),
    l.foldl (fun r p => jset r p.1 (.obj p.2)) base
      = spreadInto base (fieldsOf (l.map (fun p => (p.1, ConfigValue.obj p.2))))
  | [], _ => rfl
  | p :: rest, base => foldl_jset_eq_spread rest (jset base p.1 (.obj p.2))

theorem entries_fieldsOf : ∀ (xs : List (String × ConfigValue)),
    entries (fieldsOf xs) = xs
  | [] => rfl
  | (k, v) :: rest => by simp [fieldsOf, entries, entries_fieldsOf rest]

theorem allValsNonObj_filterNonComponent : ∀ (o : Fields),
    allValsNonObj (filterNonComponent o) = true
  | .nil => rfl
  | .cons k v rest => by
      by_cases h : isNonComponentVal v = true
      · simp [filterNonComponent, h, allValsNonObj,
          allValsNonObj_filterNonComponent rest]
      · simp only [Bool.not_eq_true] at h
        simp [filterNonComponent, h, allValsNonObj_filterNonComponent rest]

theorem allValsNonObj_jset : ∀ (o : Fields) (k : String) (v : ConfigValue),
    allValsNonObj o = true → isNonComponentVal v = true →
    allValsNonObj (jset o k v) = true
  | .nil, k, v, _, hv => by simp [jset, allValsNonObj, hv]
  | .cons k1 v1 rest, k, v, h, hv => by
      simp only [allValsNonObj, Bool.and_eq_true] at h
      by_cases hk : k1 = k
      · simp [jset, hk, allValsNonObj, hv, h.2]
      · simp [jset, hk, allValsNonObj, h.1, allValsNonObj_jset rest k v h.2 hv]

/-- The merge step keeps a non-mapping incoming value unchanged. -/
theorem mergeStep_eq (v : ConfigValue) (w : Option ConfigValue) :
    isNonComponentVal v = false ∨
    (match v, w with
      | .obj ov, some (.obj rv) => ConfigValue.obj (mergeTwo rv ov)
      | _, _ => v) = v := by
  cases v with
  | obj o' => exact Or.inl rfl
  | null =>
      right
      cases w with
      | none => rfl
      | some u => cases u <;> rfl
  | bool b =>
      right
      cases w with
      | none => rfl
      | some u => cases u <;> rfl
  | num n =>
      right
      cases w with
      | none => rfl
      | some u => cases u <;> rfl
  | str s =>
      right
      cases w with
      | none => rfl
      | some u => cases u <;> rfl
  | arr xs =>
      right
      cases w with
      | none => rfl
      | some u => cases u <;> rfl

theorem allValsNonObj_mergeTwo : ∀ (o r : Fields),
    allValsNonObj r = true → allValsNonObj o = true →
    allValsNonObj (mergeTwo r o) = true
  | .nil, r, hr, _ => hr
  | .cons k v rest, r, hr, ho => by
      simp only [allValsNonObj, Bool.and_eq_true] at ho
      rcases mergeStep_eq v (jget r k) with hcase | heq
      · rw [ho.1] at hcase
        exact absurd hcase (by simp)
      · rw [mergeTwo_cons, heq]
        exact allValsNonObj_mergeTwo rest _ (allValsNonObj_jset r k v hr ho.1) ho.2

theorem allValsNonObj_getGlobalMerged (config : DeploymentConfig)
    (envCfg : Fields) (fullRegion : Option String) :
    allValsNonObj (getGlobalMerged config envCfg fullRegion) = true := by
  unfold getGlobalMerged
  refine allValsNonObj_mergeTwo _ _ ?_ ?_
  · refine allValsNonObj_mergeTwo _ _ ?_ ?_
    · exact allValsNonObj_mergeTwo _ _ rfl (allValsNonObj_filterNonComponent _)
    · exact allValsNonObj_filterNonComponent _
  · cases fullRegion with
    | none => rfl
    | some fr =>
        dsimp only
        cases jget (regionsObj envCfg) fr with
        | none => rfl
        | some rcv => cases rcv <;> first
          | rfl
          | exact allValsNonObj_filterNonComponent _

theorem noUM_of_nonObj (v : ConfigValue) (h : isNonComponentVal v = true) :
    noUM v = true := by
  cases v with
  | obj o => simp [isNonComponentVal] at h
  | null => rfl
  | bool b => rfl
  | num n => rfl
  | str s => rfl
  | arr xs => rfl

theorem jget_of_allValsNonObj : ∀ (o : Fields) (k : String) (v : ConfigValue),
    allValsNonObj o = true → jget o k = some v → noUM v = true
  | .nil, _, _, _, h => Option.noConfusion h
  | .cons k1 v1 rest, k, v, ha, h => by
      simp only [allValsNonObj, Bool.and_eq_true] at ha
      by_cases hk : k1 = k
      · subst hk
        simp only [jget, if_pos rfl] at h
        cases h
        exact noUM_of_nonObj v1 ha.1
      · simp only [jget, hk, if_false] at h
        exact jget_of_allValsNonObj rest k v ha.2 h

theorem validStep_snd (config : DeploymentConfig) (envCfg : Fields)
    (fullRegion regionOpt : Option String) (x : String) (y : String × Fields)
    (h : validStep config envCfg fullRegion regionOpt x = some y) :
    y.2 = getMergedComponentConfig config envCfg fullRegion x := by
  unfold validStep at h
  split at h
  · exact absurd h (by simp)
  · split at h
    · exact absurd h (by simp)
    · cases h
      rfl

theorem assembled_strips_valids (config : DeploymentConfig) (envCfg : Fields)
    (fullRegion regionOpt : Option String) (k : String) (v : ConfigValue)
    (h : jget ((validComponents config envCfg fullRegion regionOpt).foldl
        (fun r p => jset r p.1 (.obj p.2))
        (getGlobalMerged config envCfg fullRegion)) k = some v) :
    noUM v = true := by
  rw [foldl_jset_eq_spread] at h
  rcases jget_spreadInto _ _ _ _ h with hm | hg
  · rw [entries_fieldsOf] at hm
    rcases List.mem_map.mp hm with ⟨p, hp, he⟩
    have hv : ConfigValue.obj p.2 = v := congrArg Prod.snd he
    rcases List.mem_filterMap.mp hp with ⟨x, _, hfx⟩
    have h2 := validStep_snd config envCfg fullRegion regionOpt x p hfx
    rw [← hv, h2]
    show noUMF (getMergedComponentConfig config envCfg fullRegion x) = true
    unfold getMergedComponentConfig
    exact strip_noUMF _
  · exact jget_of_allValsNonObj _ _ _
      (allValsNonObj_getGlobalMerged config envCfg fullRegion) hg

theorem finishResult_strips (det : DetEnvResult)
    (fullRegion shortRegion : Option String) (opts : MergeOptions)
    (assembled res : Fields)
    (hout : opts.output ≠ some "flatten")
    (hok : finishResult det fullRegion shortRegion opts assembled = .ok res)
    (ha : ∀ k v, jget assembled k = some v → noUM v = true) :
    ∀ k v, jget res k = some v → noUM v = true := by
  intro k v h
  simp only [finishResult] at hok
  split at hok
  · exact absurd hok (by simp)
  · split at hok
    · rename_i hflat
      exact absurd hflat hout
    · cases hok
      unfold injectMetadata at h
      rcases jget_jset_cases _ _ _ _ _ h with ⟨_, hv⟩ | h
      · subst hv; rfl
      rcases jget_jset_cases _ _ _ _ _ h with ⟨_, hv⟩ | h
      · subst hv; rfl
      rcases jget_jset_cases _ _ _ _ _ h with ⟨_, hv⟩ | h
      · subst hv; rfl
      rcases jget_jset_cases _ _ _ _ _ h with ⟨_, hv⟩ | h
      · subst hv; rfl
      rcases jget_jset_cases _ _ _ _ _ h with ⟨_, hv⟩ | h
      · subst hv; rfl
      exact ha k v h

theorem mergeConfigCore_strips (config : DeploymentConfig) (det : DetEnvResult)
    (envCfg : Fields) (regionOpt fullRegion shortRegion : Option String)
    (opts : MergeOptions) (res : Fields)
    (hout : opts.output ≠ some "flatten")
    (hok : mergeConfigCore config det envCfg regionOpt fullRegion shortRegion opts
      = .ok res) :
    ∀ k v, jget res k = some v → noUM v = true := by
  unfold mergeConfigCore at hok
  split at hok
  · rename_i cName hceq
    split at hok
    · exact absurd hok (by simp)
    · split at hok
      · exact absurd hok (by simp)
      · refine finishResult_strips _ _ _ _ _ _ hout hok ?_
        intro k v h
        rcases jget_spreadInto _ _ _ _ h with hm | hg
        · have hs : noUMF (getMergedComponentConfig config envCfg fullRegion cName)
              = true := by
            unfold getMergedComponentConfig
            exact strip_noUMF _
          exact noUMF_entry _ _ _ hs hm
        · exact jget_of_allValsNonObj _ _ _
            (allValsNonObj_getGlobalMerged config envCfg fullRegion) hg
  · split at hok
    · exact absurd hok (by simp)
    · refine finishResult_strips _ _ _ _ _ _ hout hok ?_
      intro k v h
      exact assembled_strips_valids config envCfg fullRegion regionOpt k v h

/--
C5 (amended): for every successful nested resolve, every root value of the
returned configuration is free of keys beginning with `_` at every mapping
depth outside arrays — components are metadata-stripped — but mappings nested
inside arrays are not stripped (see the counterexample), and a component
whose own name begins with `_` keeps that name.
-/
theorem resolve_strips_metadata :
    ∀ (config : DeploymentConfig) (opts : MergeOptions) (res : Fields),
    opts.output ≠ some "flatten" →
    mergeConfig config opts = .ok res →
    ∀ k v, jget res k = some v → noUM v = true := by
  intro config opts res hout hok
  simp only [mergeConfig] at hok
  split at hok
  · exact absurd hok (by simp)
  · split at hok
    · exact absurd hok (by simp)
    · split at hok
      · split at hok
        · exact absurd hok (by simp)
        · exact mergeConfigCore_strips _ _ _ _ _ _ _ _ hout hok
      · exact mergeConfigCore_strips _ _ _ _ _ _ _ _ hout hok

/-- Witness for the amended C5: the surviving component of a concrete
resolve satisfies the stripped-output predicate. -/
theorem resolve_strips_metadata_witness :
    noUM (.obj (fieldsOf
      [("xs", .arr (valsOf [.obj (fieldsOf [("_x", .num 1)])]))])) = true :=
  resolve_strips_metadata cfgUnderscoreArr (plainOpts "dev") resUnderscoreArr
    (by decide) rfl "comp" _ rfl

/--
Counterexample to C5 as stated: a successful resolve whose returned
configuration still contains the key `_x` (at a depth inside an array
element), because `stripMetadataKeys` never recurses into arrays.
-/
theorem resolve_strips_metadata_counterexample :
    mergeConfig cfgUnderscoreArr (plainOpts "dev") = .ok resUnderscoreArr
    ∧ anyUnderscoreKey (.obj resUnderscoreArr) = true :=
  ⟨rfl, by decide⟩

/-- Witness for C6: a component null at the env level but satisfied in one
region makes the environment available. -/
theorem availability_env_or_region_witness :
    (getComponentEnvAvailability
      ⟨some (fieldsOf [("db", .obj (fieldsOf [("host", .null)]))]), none⟩
      [("dev", fieldsOf
        [("regions", .obj (fieldsOf [("us-west-2", .obj (fieldsOf
          [("db", .obj (fieldsOf [("host", .str "h")]))]))]))])]
      "dev" ["us-west-2"] "db").available = true :=
  ((availability_env_or_region
      ⟨some (fieldsOf [("db", .obj (fieldsOf [("host", .null)]))]), none⟩
      [("dev", fieldsOf
        [("regions", .obj (fieldsOf [("us-west-2", .obj (fieldsOf
          [("db", .obj (fieldsOf [("host", .str "h")]))]))]))])]
      "dev" ["us-west-2"] "db").1 (by decide)).mpr
    (Or.inr ⟨"us-west-2", by decide, by decide⟩)

end UDC
